import Mathlib

/-!
Verification of the service-worker audit pipeline
(`audit.js`: `ServiceWorker.getVersionsForOrigin`,
`ServiceWorker.getControllingServiceWorker`, `ServiceWorker.checkStartUrl`,
`ServiceWorker.audit`) against its natural-language specification.

The JavaScript code is shallowly embedded: stateless functions become Lean
functions; JavaScript exceptions (thrown by the `URL` constructor on a
malformed URL string) are modelled with `Option`, `none` standing for a
thrown exception escaping the audit.
-/

namespace SWAudit

/-! ## URL model -/

/-- Modelled from the spec: the `URL` class comes from `lib/url-shim.js`,
which is not part of the audited sources.  Per the spec a URL is resolved
to a canonical absolute href; the glossary defines an origin as the
scheme + host (+ port) triple.  We model an absolute URL as a scheme, a
host and a path (query and fragment folded into the path; ports and
percent-encoding are not modelled, and schemes are lower-case ASCII). -/
structure JSURL where
  scheme : String
  host : String
  path : String
deriving Repr, DecidableEq

/-- Characters allowed in a URL scheme in this model (lower-case ASCII). -/
def isSchemeChar (c : Char) : Bool := c.isLower

/-- After the colon of the scheme separator, two slashes must follow;
returns what comes after them. -/
def sepRest : List Char → Option (List Char)
  | [] => none
  | [_] => none
  | c1 :: c2 :: rest => if c1 == '/' && c2 == '/' then some rest else none

/-- Split a character list at the first scheme separator.  Returns the
scheme characters (all satisfying `isSchemeChar`) and the remainder after
the separator sequence, or `none` when no well-formed separator is found
(this is the case where the JavaScript `URL` constructor throws). -/
def splitScheme : List Char → Option (List Char × List Char)
  | [] => none
  | c :: cs =>
    if c == ':' then
      (sepRest cs).map (fun r => (([] : List Char), r))
    else if isSchemeChar c then
      (splitScheme cs).map (fun p => (c :: p.1, p.2))
    else none

/-- Split the part after the scheme separator at the first slash:
host characters (never containing a slash) and the path remainder
(either empty or beginning with a slash). -/
def splitHostPath : List Char → List Char × List Char
  | [] => ([], [])
  | c :: cs =>
    if c == '/' then ([], c :: cs)
    else
      let hp := splitHostPath cs
      (c :: hp.1, hp.2)

/-- Modelled from the spec: `new URL(s)` for an absolute URL string.
Returns `none` (the constructor throws) when the string has no
scheme separator, an empty scheme, or an empty host; otherwise the
canonical components, with an empty path canonicalized to a single
slash as the WHATWG serialization does. -/
def parseURL (s : String) : Option JSURL :=
  match splitScheme s.data with
  | none => none
  | some (sch, rest) =>
    if sch = [] then none
    else
      match splitHostPath rest with
      | (h, p) =>
        if h = [] then none
        else some ⟨String.mk sch, String.mk h, String.mk (if p = [] then ['/'] else p)⟩

/-- The `origin` property of a parsed URL: scheme, separator, host. -/
def JSURL.origin (u : JSURL) : String :=
  String.mk (u.scheme.data ++ ':' :: '/' :: '/' :: (u.host.data))

/-- The `href` property of a parsed URL: its canonical serialization. -/
def JSURL.href (u : JSURL) : String :=
  String.mk (u.scheme.data ++ ':' :: '/' :: '/' :: (u.host.data ++ u.path.data))

/-- Normalizing a URL string: parse it and take the canonical href.
`none` models the `URL` constructor throwing. -/
def normalizeUrl (s : String) : Option String :=
  (parseURL s).map JSURL.href

/-! ## String operations -/

/-- Character-list version of `String.prototype.startsWith`. -/
def listStartsWith : List Char → List Char → Bool
  | _, [] => true
  | [], _ :: _ => false
  | a :: as, b :: bs => a == b && listStartsWith as bs

/-- Models `s.startsWith(pre)` from JavaScript: `pre` is a literal
leading substring of `s`. -/
def strStartsWith (s pre : String) : Bool :=
  listStartsWith s.data pre.data

/-! ## Data model (artifact shapes from the audit's declared inputs) -/

/-- One service-worker version from the browser's registry
(`LH.Crdp.ServiceWorker.ServiceWorkerVersion`, fields used by the audit). -/
structure SWVersion where
  status : String
  scriptURL : String
  registrationId : String
deriving Repr, DecidableEq

/-- One service-worker registration
(`LH.Crdp.ServiceWorker.ServiceWorkerRegistration`, fields used). -/
structure SWRegistration where
  registrationId : String
  scopeURL : String
deriving Repr, DecidableEq

/-- Modelled from the spec: the parsed manifest's `start_url` field wrapper,
`{ value: string }`; the manifest parser producing it is not part of the
audited sources, and per the spec a parsed manifest always carries a
`start_url` entry. -/
structure StartUrlField where
  value : String
deriving Repr, DecidableEq

/-- Modelled from the spec: the successfully parsed manifest value,
`{ start_url: { value: string } }`. -/
structure ManifestValue where
  start_url : StartUrlField
deriving Repr, DecidableEq

/-- The `WebAppManifest` artifact when present: `value` is `none` when the
manifest was fetched but failed to parse. -/
structure ManifestArtifact where
  value : Option ManifestValue
deriving Repr, DecidableEq

/-- The `URL` artifact: the final (post-redirect) page URL string. -/
structure URLArtifact where
  finalUrl : String
deriving Repr, DecidableEq

/-- The `ServiceWorker` artifact: versions and registrations. -/
structure SWArtifact where
  versions : List SWVersion
  registrations : List SWRegistration
deriving Repr, DecidableEq

/-- The full artifact bundle consumed by `ServiceWorker.audit`.
The `WebAppManifest` artifact is `none` when no manifest was fetched. -/
structure Artifacts where
  URL : URLArtifact
  ServiceWorker : SWArtifact
  WebAppManifest : Option ManifestArtifact
deriving Repr, DecidableEq

/-- The localizable explanation messages the audit can emit, modelled by
message identity plus placeholder values (the i18n formatting layer is out
of scope per the spec). -/
inductive Explanation where
  | outOfScope (pageUrl : String)
  | noManifest
  | badManifest
  | badStartUrl (startUrl : String) (scopeUrl : String)
deriving Repr, DecidableEq

/-- The winning scope/script pair (also the shape of the `debugdata`
details, whose constant `type` tag is dropped). -/
structure ScopeMatch where
  scopeUrl : String
  scriptUrl : String
deriving Repr, DecidableEq

/-- The audit product: score, optional explanation, optional details. -/
structure Verdict where
  score : Nat
  explanation : Option Explanation
  details : Option ScopeMatch
deriving Repr, DecidableEq

/-! ## Core functions, translated from `ServiceWorker` in `audit.js` -/

/-- The test `new URL(v.scriptURL).origin === pageUrl.origin` from
`getVersionsForOrigin`; `none` models the `URL` constructor throwing. -/
def originMatchesM (pu : JSURL) (v : SWVersion) : Option Bool :=
  match parseURL v.scriptURL with
  | none => none
  | some w => some (w.origin == pu.origin)

/-- Total variant of the origin test, used only in theorem statements:
`false` where the monadic version throws. -/
def originMatchesB (pu : JSURL) (v : SWVersion) : Bool :=
  match parseURL v.scriptURL with
  | none => false
  | some w => w.origin == pu.origin

/-- The second `.filter` of `getVersionsForOrigin`, whose callback can
throw while parsing `v.scriptURL`. -/
def filterOriginM (pu : JSURL) : List SWVersion → Option (List SWVersion)
  | [] => some []
  | v :: vs =>
    match originMatchesM pu v with
    | none => none
    | some b =>
      match filterOriginM pu vs with
      | none => none
      | some rest => some (if b then v :: rest else rest)

/-- `ServiceWorker.getVersionsForOrigin`: keep the versions with status
`activated` whose script URL origin equals the page origin. -/
def getVersionsForOrigin (versions : List SWVersion) (pageUrl : JSURL) :
    Option (List SWVersion) :=
  filterOriginM pageUrl (versions.filter (fun v => v.status == "activated"))

/-- `registrations.find(r => r.registrationId === version.registrationId)`:
first matching registration in list order. -/
def findRegistration : List SWRegistration → String → Option SWRegistration
  | [], _ => none
  | r :: rs, rid =>
    if r.registrationId == rid then some r else findRegistration rs rid

/-- The population loop of `getControllingServiceWorker`: for each version,
join to the first registration with its `registrationId` (skipping the
version when none matches) and record the normalized scope and script
hrefs.  `none` models a `URL` constructor throw inside the loop. -/
def buildScopeList : List SWVersion → List SWRegistration → Option (List ScopeMatch)
  | [], _ => some []
  | v :: vs, regs =>
    match findRegistration regs v.registrationId with
    | none => buildScopeList vs regs
    | some r =>
      match parseURL r.scopeURL, parseURL v.scriptURL with
      | some su, some vu =>
        (buildScopeList vs regs).map (fun rest => ⟨su.href, vu.href⟩ :: rest)
      | _, _ => none

/-- The sort order used by `sort((ssA, ssB) => ssA.scopeUrl.length - ssB.scopeUrl.length)`. -/
def scopeLe (a b : ScopeMatch) : Prop :=
  a.scopeUrl.length ≤ b.scopeUrl.length

instance : DecidableRel scopeLe := fun _ _ => Nat.decLe _ _

instance : IsTotal ScopeMatch scopeLe := ⟨fun _ _ => Nat.le_total _ _⟩

instance : IsTrans ScopeMatch scopeLe := ⟨fun _ _ _ => Nat.le_trans⟩

/-- Models `Array.prototype.pop()` used for its return value: the last
element of the array, or `undefined` when empty. -/
def lastElem : List ScopeMatch → Option ScopeMatch
  | [] => none
  | [x] => some x
  | _ :: y :: ys => lastElem (y :: ys)

/-- The selection chain of `getControllingServiceWorker`: filter to scopes
that are a string prefix of the page href, sort ascending by scope length
(ECMAScript sort is stable and the length comparator is consistent, so the
stable insertion sort is the exact model), and pop the last element. -/
def pickControlling (l : List ScopeMatch) (pageUrl : JSURL) : Option ScopeMatch :=
  lastElem (List.insertionSort scopeLe
    (l.filter (fun ss => strStartsWith pageUrl.href ss.scopeUrl)))

/-- `ServiceWorker.getControllingServiceWorker`: build the scope/script
list and select the most specific controlling scope.  The outer `Option`
models a thrown exception, the inner one the `undefined` result. -/
def getControllingServiceWorker (matchingSWVersions : List SWVersion)
    (registrations : List SWRegistration) (pageUrl : JSURL) :
    Option (Option ScopeMatch) :=
  (buildScopeList matchingSWVersions registrations).map
    (fun l => pickControlling l pageUrl)

/-- `ServiceWorker.checkStartUrl`: a failure message when the manifest is
absent, failed to parse, or declares a `start_url` outside the scope;
`none` on success. -/
def checkStartUrl (webAppManifest : Option ManifestArtifact) (scopeUrl : String) :
    Option Explanation :=
  match webAppManifest with
  | none => some Explanation.noManifest
  | some art =>
    match art.value with
    | none => some Explanation.badManifest
    | some v =>
      if strStartsWith v.start_url.value scopeUrl then none
      else some (Explanation.badStartUrl v.start_url.value scopeUrl)

/-- `ServiceWorker.audit`: the four-outcome decision tree.  The outer
`Option` models an exception escaping the audit (thrown by `new URL`). -/
def audit (artifacts : Artifacts) : Option Verdict :=
  match parseURL artifacts.URL.finalUrl with
  | none => none
  | some pageUrl =>
    match getVersionsForOrigin artifacts.ServiceWorker.versions pageUrl with
    | none => none
    | some versionsForOrigin =>
      if versionsForOrigin.length = 0 then
        some ⟨0, none, none⟩
      else
        match getControllingServiceWorker versionsForOrigin
            artifacts.ServiceWorker.registrations pageUrl with
        | none => none
        | some none => some ⟨0, some (Explanation.outOfScope pageUrl.href), none⟩
        | some (some serviceWorkerUrls) =>
          match checkStartUrl artifacts.WebAppManifest serviceWorkerUrls.scopeUrl with
          | some startUrlFailure =>
            some ⟨0, some startUrlFailure, some serviceWorkerUrls⟩
          | none => some ⟨1, none, some serviceWorkerUrls⟩

/-! ## URL model lemmas -/

lemma data_mk (l : List Char) : (String.mk l).data = l := rfl

lemma splitScheme_chars : ∀ l sch rest, splitScheme l = some (sch, rest) →
    ∀ c ∈ sch, isSchemeChar c = true := by
  intro l
  induction l with
  | nil => simp [splitScheme]
  | cons c cs ih =>
    intro sch rest h
    rw [splitScheme] at h
    split at h
    · rw [Option.map_eq_some'] at h
      obtain ⟨r, _, hr⟩ := h
      simp at hr
      obtain ⟨h1, _⟩ := hr
      subst h1
      intro x hx
      simp at hx
    · split at h
      · next hsc =>
        rw [Option.map_eq_some'] at h
        obtain ⟨p, hp, hpr⟩ := h
        simp at hpr
        obtain ⟨h1, h2⟩ := hpr
        subst h1
        intro x hx
        rcases List.mem_cons.mp hx with rfl | hx
        · exact hsc
        · exact ih p.1 p.2 (by rw [hp]) x hx
      · simp at h

lemma splitScheme_append : ∀ sch rest, (∀ c ∈ sch, isSchemeChar c = true) →
    splitScheme (sch ++ ':' :: '/' :: '/' :: rest) = some (sch, rest) := by
  intro sch
  induction sch with
  | nil => intro rest _; simp [splitScheme, sepRest]
  | cons c cs ih =>
    intro rest h
    have hc : isSchemeChar c = true := h c (by simp)
    have hne : c ≠ ':' := by
      intro he
      rw [he] at hc
      simp [isSchemeChar] at hc
    have hnc : (c == ':') = false := beq_eq_false_iff_ne.mpr hne
    rw [List.cons_append, splitScheme, hnc]
    simp only [Bool.false_eq_true, if_false, hc, if_true]
    rw [ih rest (fun x hx => h x (List.mem_cons_of_mem c hx))]
    rfl

lemma splitHostPath_spec : ∀ l, (∀ c ∈ (splitHostPath l).1, (c == '/') = false) ∧
    ((splitHostPath l).2 = [] ∨ ∃ q, (splitHostPath l).2 = '/' :: q) := by
  intro l
  induction l with
  | nil => simp [splitHostPath]
  | cons c cs ih =>
    rw [splitHostPath]
    by_cases hc : (c == '/') = true
    · rw [if_pos hc]
      refine ⟨by simp, Or.inr ⟨cs, ?_⟩⟩
      have : c = '/' := by simpa using hc
      simp [this]
    · rw [if_neg hc]
      refine ⟨?_, ih.2⟩
      intro x hx
      rcases List.mem_cons.mp hx with rfl | hx
      · simpa using hc
      · exact ih.1 x hx

lemma splitHostPath_append : ∀ h q, (∀ c ∈ h, (c == '/') = false) →
    splitHostPath (h ++ '/' :: q) = (h, '/' :: q) := by
  intro h
  induction h with
  | nil => intro q _; simp [splitHostPath]
  | cons c cs ih =>
    intro q hh
    rw [List.cons_append, splitHostPath, hh c (by simp)]
    simp only [Bool.false_eq_true, if_false]
    rw [ih q (fun x hx => hh x (List.mem_cons_of_mem c hx))]

lemma parseURL_elim {s : String} {u : JSURL} (hp : parseURL s = some u) :
    ∃ sch h p, (∀ c ∈ sch, isSchemeChar c = true) ∧ sch ≠ [] ∧
      (∀ c ∈ h, (c == '/') = false) ∧ h ≠ [] ∧
      (∃ q, p = '/' :: q) ∧
      u = ⟨String.mk sch, String.mk h, String.mk p⟩ := by
  rw [parseURL] at hp
  cases hss : splitScheme s.data with
  | none => rw [hss] at hp; simp at hp
  | some pr =>
    obtain ⟨sch, rest⟩ := pr
    rw [hss] at hp
    simp only [] at hp
    by_cases hsch : sch = []
    · rw [if_pos hsch] at hp; simp at hp
    · rw [if_neg hsch] at hp
      have hspec := splitHostPath_spec rest
      cases hhp : splitHostPath rest with
      | mk h p0 =>
        rw [hhp] at hp hspec
        dsimp only at hspec
        by_cases hh : h = []
        · rw [if_pos hh] at hp; simp at hp
        · rw [if_neg hh] at hp
          simp only [Option.some.injEq] at hp
          refine ⟨sch, h, if p0 = [] then ['/'] else p0,
            splitScheme_chars s.data sch rest hss, hsch, hspec.1, hh, ?_, hp.symm⟩
          by_cases hp0 : p0 = []
          · exact ⟨[], by rw [if_pos hp0]⟩
          · rcases hspec.2 with h2 | ⟨q, hq⟩
            · exact absurd h2 hp0
            · exact ⟨q, by rw [if_neg hp0, hq]⟩

/-- Re-parsing the canonical serialization of a parsed URL recovers it
exactly: normalization is idempotent in this model. -/
lemma parseURL_roundtrip {s : String} {u : JSURL} (hp : parseURL s = some u) :
    parseURL u.href = some u := by
  obtain ⟨sch, h, p, hchars, hsch, hslash, hh, ⟨q, hq⟩, rfl⟩ := parseURL_elim hp
  rw [parseURL]
  simp only [JSURL.href, data_mk]
  rw [hq, splitScheme_append sch (h ++ '/' :: q) hchars]
  simp only []
  rw [if_neg hsch, splitHostPath_append h q hslash]
  simp only []
  rw [if_neg hh]
  simp

/-- The href of any parsed URL is a fixed point of normalization. -/
lemma normalizeUrl_fixed {s : String} {u : JSURL} (hp : parseURL s = some u) :
    normalizeUrl u.href = some u.href := by
  rw [normalizeUrl, parseURL_roundtrip hp, Option.map_some']


/-! ## Sort and pop lemmas -/

lemma lastElem_some : ∀ (c : ScopeMatch) (t : List ScopeMatch), ∃ a, lastElem (c :: t) = some a := by
  intro c t
  induction t generalizing c with
  | nil => exact ⟨c, rfl⟩
  | cons y ys ih => simpa [lastElem] using ih y

lemma lastElem_eq_none : ∀ {l : List ScopeMatch}, lastElem l = none → l = [] := by
  intro l h
  cases l with
  | nil => rfl
  | cons c t =>
    obtain ⟨a, ha⟩ := lastElem_some c t
    rw [ha] at h
    simp at h

lemma lastElem_cons_of_ne (c : ScopeMatch) {t : List ScopeMatch} (h : t ≠ []) :
    lastElem (c :: t) = lastElem t := by
  cases t with
  | nil => exact absurd rfl h
  | cons y ys => rw [lastElem]

lemma lastElem_mem : ∀ {l : List ScopeMatch} {a : ScopeMatch}, lastElem l = some a → a ∈ l := by
  intro l
  induction l with
  | nil => intro a h; simp [lastElem] at h
  | cons c t ih =>
    intro a h
    cases t with
    | nil =>
      rw [lastElem] at h
      simp at h
      simp [h]
    | cons y ys =>
      rw [lastElem] at h
      exact List.mem_cons_of_mem c (ih h)

/-- The last element (by original order) among those with maximal
`scopeUrl` length: what a stable ascending sort followed by `pop` yields. -/
def lastMax : List ScopeMatch → Option ScopeMatch
  | [] => none
  | x :: xs =>
    match lastMax xs with
    | none => some x
    | some a => if a.scopeUrl.length < x.scopeUrl.length then some x else some a

lemma lastMax_eq_none : ∀ {m : List ScopeMatch}, lastMax m = none → m = [] := by
  intro m h
  cases m with
  | nil => rfl
  | cons x xs =>
    rw [lastMax] at h
    cases hxs : lastMax xs with
    | none => rw [hxs] at h; simp at h
    | some a =>
      rw [hxs] at h
      dsimp only at h
      split at h <;> simp at h

lemma orderedInsert_ne_nil (x : ScopeMatch) (s : List ScopeMatch) :
    List.orderedInsert scopeLe x s ≠ [] := by
  cases s with
  | nil => simp [List.orderedInsert]
  | cons y ys =>
    rw [List.orderedInsert]
    split <;> simp

lemma lastElem_orderedInsert (x : ScopeMatch) (s : List ScopeMatch)
    (hs : List.Sorted scopeLe s) :
    lastElem (List.orderedInsert scopeLe x s) =
      (match lastElem s with
       | none => some x
       | some a => if a.scopeUrl.length < x.scopeUrl.length then some x else some a) := by
  induction s with
  | nil => simp [List.orderedInsert, lastElem]
  | cons y ys ih =>
    rw [List.orderedInsert]
    by_cases h : scopeLe x y
    · rw [if_pos h]
      obtain ⟨a, ha⟩ := lastElem_some y ys
      have h1 : lastElem (x :: y :: ys) = lastElem (y :: ys) := by rw [lastElem]
      rw [h1, ha]
      have ham : a ∈ y :: ys := lastElem_mem ha
      have hya : y.scopeUrl.length ≤ a.scopeUrl.length := by
        rcases List.mem_cons.mp ham with rfl | ham'
        · exact Nat.le_refl _
        · exact List.rel_of_sorted_cons hs a ham'
      have hxa : x.scopeUrl.length ≤ a.scopeUrl.length := Nat.le_trans h hya
      dsimp only
      rw [if_neg (by omega)]
    · rw [if_neg h]
      have hlt : y.scopeUrl.length < x.scopeUrl.length := by
        simp [scopeLe] at h
        omega
      rw [lastElem_cons_of_ne y (orderedInsert_ne_nil x ys), ih hs.of_cons]
      cases hys : lastElem ys with
      | none =>
        have : ys = [] := lastElem_eq_none hys
        subst this
        simp only [lastElem]
        rw [if_pos hlt]
      | some a =>
        have hysne : ys ≠ [] := by
          intro he
          subst he
          simp [lastElem] at hys
        rw [lastElem_cons_of_ne y hysne, hys]

lemma lastElem_insertionSort (m : List ScopeMatch) :
    lastElem (List.insertionSort scopeLe m) = lastMax m := by
  induction m with
  | nil => rfl
  | cons x xs ih =>
    rw [List.insertionSort,
      lastElem_orderedInsert x _ (List.sorted_insertionSort scopeLe xs), ih, lastMax]

lemma lastMax_spec : ∀ m : List ScopeMatch, m ≠ [] →
    ∃ x l₁ l₂, lastMax m = some x ∧ m = l₁ ++ x :: l₂ ∧
      (∀ y ∈ m, y.scopeUrl.length ≤ x.scopeUrl.length) ∧
      (∀ y ∈ l₂, y.scopeUrl.length < x.scopeUrl.length) := by
  intro m
  induction m with
  | nil => intro h; exact absurd rfl h
  | cons x xs ih =>
    intro _
    cases hxs : lastMax xs with
    | none =>
      have hnil : xs = [] := lastMax_eq_none hxs
      subst hnil
      refine ⟨x, [], [], by simp [lastMax], by simp, ?_, by simp⟩
      intro y hy
      simp at hy
      simp [hy]
    | some a =>
      have hne : xs ≠ [] := by
        intro he
        subst he
        simp [lastMax] at hxs
      obtain ⟨a', l₁, l₂, ha', hdec, hmax, hstrict⟩ := ih hne
      rw [hxs] at ha'
      simp at ha'
      subst ha'
      by_cases hc : a.scopeUrl.length < x.scopeUrl.length
      · refine ⟨x, [], xs, ?_, by simp, ?_, ?_⟩
        · rw [lastMax, hxs]
          dsimp only
          rw [if_pos hc]
        · intro y hy
          rcases List.mem_cons.mp hy with rfl | hy'
          · exact Nat.le_refl _
          · exact Nat.le_trans (hmax y hy') (Nat.le_of_lt hc)
        · intro y hy
          exact Nat.lt_of_le_of_lt (hmax y hy) hc
      · refine ⟨a, x :: l₁, l₂, ?_, by rw [hdec, List.cons_append], ?_, hstrict⟩
        · rw [lastMax, hxs]
          dsimp only
          rw [if_neg hc]
        · intro y hy
          rcases List.mem_cons.mp hy with rfl | hy'
          · omega
          · exact hmax y hy'


/-! ## Origin filter lemmas -/

lemma filterOriginM_eq_filter (pu : JSURL) :
    ∀ {l out : List SWVersion}, filterOriginM pu l = some out →
      out = l.filter (originMatchesB pu) := by
  intro l
  induction l with
  | nil => intro out h; simpa [filterOriginM] using h.symm
  | cons v vs ih =>
    intro out h
    rw [filterOriginM] at h
    cases hm : originMatchesM pu v with
    | none => rw [hm] at h; simp at h
    | some b =>
      rw [hm] at h
      cases hrec : filterOriginM pu vs with
      | none => rw [hrec] at h; simp at h
      | some rest =>
        rw [hrec] at h
        simp only [Option.some.injEq] at h
        have hb : originMatchesB pu v = b := by
          rw [originMatchesM] at hm
          rw [originMatchesB]
          cases hp : parseURL v.scriptURL with
          | none => rw [hp] at hm; simp at hm
          | some w => rw [hp] at hm; simpa using hm
        rw [List.filter_cons, hb, ← ih hrec]
        exact h.symm

lemma filterOriginM_isSome (pu : JSURL) :
    ∀ {l : List SWVersion}, (∀ v ∈ l, (parseURL v.scriptURL).isSome) →
      ∃ out, filterOriginM pu l = some out := by
  intro l
  induction l with
  | nil => intro _; exact ⟨[], rfl⟩
  | cons v vs ih =>
    intro h
    obtain ⟨w, hw⟩ := Option.isSome_iff_exists.mp (h v (by simp))
    obtain ⟨rest, hrest⟩ := ih (fun x hx => h x (List.mem_cons_of_mem v hx))
    refine ⟨if w.origin == pu.origin then v :: rest else rest, ?_⟩
    simp [filterOriginM, originMatchesM, hw, hrest]

/-! ## Registration join lemmas -/

lemma findRegistration_mem : ∀ {regs : List SWRegistration} {rid : String}
    {r : SWRegistration}, findRegistration regs rid = some r →
      r ∈ regs ∧ r.registrationId = rid := by
  intro regs
  induction regs with
  | nil => intro rid r h; simp [findRegistration] at h
  | cons r0 rs ih =>
    intro rid r h
    rw [findRegistration] at h
    by_cases hc : (r0.registrationId == rid) = true
    · rw [if_pos hc] at h
      simp only [Option.some.injEq] at h
      subst h
      exact ⟨by simp, by simpa using hc⟩
    · rw [if_neg hc] at h
      obtain ⟨hm, he⟩ := ih h
      exact ⟨List.mem_cons_of_mem r0 hm, he⟩

lemma findRegistration_append_first : ∀ (rs₁ : List SWRegistration)
    (r : SWRegistration) (rs₂ : List SWRegistration) (rid : String),
    r.registrationId = rid → (∀ r' ∈ rs₁, r'.registrationId ≠ rid) →
    findRegistration (rs₁ ++ r :: rs₂) rid = some r := by
  intro rs₁
  induction rs₁ with
  | nil =>
    intro r rs₂ rid hr _
    rw [List.nil_append, findRegistration, if_pos (by simpa using hr)]
  | cons r0 rs ih =>
    intro r rs₂ rid hr hfirst
    rw [List.cons_append, findRegistration,
      if_neg (by simpa using hfirst r0 (by simp))]
    exact ih r rs₂ rid hr (fun x hx => hfirst x (List.mem_cons_of_mem r0 hx))

/-! ## Scope list lemmas -/

lemma buildScopeList_normalized :
    ∀ {vs : List SWVersion} {regs : List SWRegistration} {l : List ScopeMatch},
      buildScopeList vs regs = some l →
      ∀ sm ∈ l, normalizeUrl sm.scopeUrl = some sm.scopeUrl ∧
        normalizeUrl sm.scriptUrl = some sm.scriptUrl := by
  intro vs
  induction vs with
  | nil =>
    intro regs l h
    rw [buildScopeList] at h
    simp only [Option.some.injEq] at h
    subst h
    intro sm hsm
    simp at hsm
  | cons v vs ih =>
    intro regs l h
    rw [buildScopeList] at h
    cases hf : findRegistration regs v.registrationId with
    | none =>
      rw [hf] at h
      exact ih h
    | some r =>
      rw [hf] at h
      dsimp only at h
      cases hsu : parseURL r.scopeURL with
      | none => rw [hsu] at h; dsimp only at h; simp at h
      | some su =>
        cases hvu : parseURL v.scriptURL with
        | none => rw [hsu, hvu] at h; dsimp only at h; simp at h
        | some vu =>
          rw [hsu, hvu] at h
          dsimp only at h
          simp only [Option.map_eq_some'] at h
          obtain ⟨rest, hrest, hl⟩ := h
          subst hl
          intro sm hsm
          rcases List.mem_cons.mp hsm with rfl | hsm'
          · exact ⟨normalizeUrl_fixed hsu, normalizeUrl_fixed hvu⟩
          · exact ih hrest sm hsm'

lemma buildScopeList_isSome :
    ∀ {vs : List SWVersion} {regs : List SWRegistration},
      (∀ v ∈ vs, (parseURL v.scriptURL).isSome) →
      (∀ r ∈ regs, (parseURL r.scopeURL).isSome) →
      ∃ l, buildScopeList vs regs = some l := by
  intro vs
  induction vs with
  | nil => intro regs _ _; exact ⟨[], rfl⟩
  | cons v vs ih =>
    intro regs hv hr
    obtain ⟨l, hl⟩ := ih (fun x hx => hv x (List.mem_cons_of_mem v hx)) hr
    cases hf : findRegistration regs v.registrationId with
    | none => exact ⟨l, by rw [buildScopeList, hf, hl]⟩
    | some r =>
      obtain ⟨su, hsu⟩ := Option.isSome_iff_exists.mp (hr r (findRegistration_mem hf).1)
      obtain ⟨vu, hvu⟩ := Option.isSome_iff_exists.mp (hv v (by simp))
      refine ⟨⟨su.href, vu.href⟩ :: l, ?_⟩
      rw [buildScopeList, hf]
      dsimp only
      rw [hsu, hvu]
      dsimp only
      rw [hl]
      rfl


/-- C5: `checkStartUrl` returns the no-manifest failure exactly when the
artifact is absent, the bad-manifest failure exactly when it is present
without a parsed value, the bad-start-url failure (carrying the start URL
and scope URL) exactly when the parsed `start_url` does not begin with the
scope URL, and success otherwise; the four results are mutually exclusive
and exhaustive. -/
theorem checkStartUrl_cases (m : Option ManifestArtifact) (scope : String) :
    (checkStartUrl m scope = some Explanation.noManifest ↔ m = none) ∧
    (checkStartUrl m scope = some Explanation.badManifest ↔
      ∃ a, m = some a ∧ a.value = none) ∧
    (∀ s, checkStartUrl m scope = some (Explanation.badStartUrl s scope) ↔
      ∃ a v, m = some a ∧ a.value = some v ∧ v.start_url.value = s ∧
        strStartsWith s scope = false) ∧
    (checkStartUrl m scope = none ↔ ∃ a v, m = some a ∧ a.value = some v ∧
      strStartsWith v.start_url.value scope = true) := by
  cases m with
  | none =>
    exact ⟨by simp [checkStartUrl], by simp [checkStartUrl],
      fun s => by simp [checkStartUrl], by simp [checkStartUrl]⟩
  | some art =>
    cases hv : art.value with
    | none =>
      exact ⟨by simp [checkStartUrl, hv], by simp [checkStartUrl, hv],
        fun s => by simp [checkStartUrl, hv], by simp [checkStartUrl, hv]⟩
    | some mv =>
      by_cases hsw : strStartsWith mv.start_url.value scope = true
      · refine ⟨by simp [checkStartUrl, hv, hsw], by simp [checkStartUrl, hv, hsw],
          fun s => ?_, by simp [checkStartUrl, hv, hsw]⟩
        simp [checkStartUrl, hv, hsw]
        rintro rfl
        exact hsw
      · have hsw2 : strStartsWith mv.start_url.value scope = false :=
          Bool.eq_false_iff.mpr hsw
        refine ⟨by simp [checkStartUrl, hv, hsw2], by simp [checkStartUrl, hv, hsw2],
          fun s => ?_, by simp [checkStartUrl, hv, hsw2]⟩
        simp [checkStartUrl, hv, hsw2]
        rintro rfl
        exact hsw2

/-- C6: `getVersionsForOrigin`, when it completes, returns exactly the
subsequence of input versions with status `activated` whose script URL
origin equals the page origin, in input order; its length is at most the
input length. -/
theorem getVersionsForOrigin_exact (versions : List SWVersion) (pu : JSURL)
    (out : List SWVersion) (h : getVersionsForOrigin versions pu = some out) :
    out = (versions.filter (fun v => v.status == "activated")).filter
        (originMatchesB pu) ∧
    List.Sublist out versions ∧
    out.length ≤ versions.length ∧
    ∀ v ∈ out, v.status = "activated" ∧
      ∃ w, parseURL v.scriptURL = some w ∧ w.origin = pu.origin := by
  have h1 := filterOriginM_eq_filter pu h
  have hsub : List.Sublist out versions := by
    rw [h1]
    exact (List.filter_sublist _).trans (List.filter_sublist _)
  refine ⟨h1, hsub, hsub.length_le, ?_⟩
  intro v hv
  rw [h1] at hv
  have hv2 := List.mem_filter.mp hv
  have hv3 := List.mem_filter.mp hv2.1
  refine ⟨by simpa using hv3.2, ?_⟩
  have hb := hv2.2
  rw [originMatchesB] at hb
  cases hp : parseURL v.scriptURL with
  | none => rw [hp] at hb; simp at hb
  | some w => rw [hp] at hb; exact ⟨w, rfl, by simpa using hb⟩

theorem getVersionsForOrigin_exact_witness :
    getVersionsForOrigin [⟨"activated", "https://example.com/sw.js", "1"⟩]
        ⟨"https", "example.com", "/"⟩ =
      some [⟨"activated", "https://example.com/sw.js", "1"⟩] ∧
    List.Sublist [(⟨"activated", "https://example.com/sw.js", "1"⟩ : SWVersion)]
      [⟨"activated", "https://example.com/sw.js", "1"⟩] :=
  ⟨rfl, (getVersionsForOrigin_exact
    [⟨"activated", "https://example.com/sw.js", "1"⟩] ⟨"https", "example.com", "/"⟩
    [⟨"activated", "https://example.com/sw.js", "1"⟩] rfl).2.1⟩

/-- C7: whenever the controlling-scope resolver returns a result, the
returned scope URL is a literal string prefix of the page URL href. -/
theorem controllingScope_startsWith_pageHref (vers : List SWVersion)
    (regs : List SWRegistration) (pu : JSURL) (sm : ScopeMatch)
    (h : getControllingServiceWorker vers regs pu = some (some sm)) :
    strStartsWith pu.href sm.scopeUrl = true := by
  rw [getControllingServiceWorker, Option.map_eq_some'] at h
  obtain ⟨l, hl, hpick⟩ := h
  rw [pickControlling] at hpick
  have hmem := lastElem_mem hpick
  rw [List.mem_insertionSort] at hmem
  simpa using (List.mem_filter.mp hmem).2

theorem controllingScope_startsWith_pageHref_witness :
    strStartsWith (JSURL.href ⟨"https", "example.com", "/page"⟩)
      "https://example.com/" = true :=
  controllingScope_startsWith_pageHref
    [⟨"activated", "https://example.com/sw.js", "1"⟩]
    [⟨"1", "https://example.com/"⟩] ⟨"https", "example.com", "/page"⟩
    ⟨"https://example.com/", "https://example.com/sw.js"⟩ rfl

/-- C9: every scope URL the resolver returns is a fixed point of
normalization: re-normalizing it yields the same string. -/
theorem controllingScope_normalization_fixed (vers : List SWVersion)
    (regs : List SWRegistration) (pu : JSURL) (sm : ScopeMatch)
    (h : getControllingServiceWorker vers regs pu = some (some sm)) :
    normalizeUrl sm.scopeUrl = some sm.scopeUrl := by
  rw [getControllingServiceWorker, Option.map_eq_some'] at h
  obtain ⟨l, hl, hpick⟩ := h
  rw [pickControlling] at hpick
  have hmem := lastElem_mem hpick
  rw [List.mem_insertionSort] at hmem
  exact (buildScopeList_normalized hl sm (List.mem_filter.mp hmem).1).1

theorem controllingScope_normalization_fixed_witness :
    normalizeUrl "https://example.com/app/" = some "https://example.com/app/" :=
  controllingScope_normalization_fixed
    [⟨"activated", "https://example.com/app/sw.js", "7"⟩]
    [⟨"7", "https://example.com/app/"⟩] ⟨"https", "example.com", "/app/page"⟩
    ⟨"https://example.com/app/", "https://example.com/app/sw.js"⟩ rfl

/-- C10: the origin filter depends only on the page URL's origin: two page
URLs with equal origins produce identical filter output on every versions
list. -/
theorem getVersionsForOrigin_origin_only (u₁ u₂ : JSURL)
    (h : u₁.origin = u₂.origin) (versions : List SWVersion) :
    getVersionsForOrigin versions u₁ = getVersionsForOrigin versions u₂ := by
  rw [getVersionsForOrigin, getVersionsForOrigin]
  generalize versions.filter (fun v => v.status == "activated") = l
  induction l with
  | nil => rfl
  | cons v vs ih =>
    rw [filterOriginM, filterOriginM]
    have hm : originMatchesM u₁ v = originMatchesM u₂ v := by
      rw [originMatchesM, originMatchesM]
      cases parseURL v.scriptURL <;> simp [h]
    rw [hm, ih]

theorem getVersionsForOrigin_origin_only_witness :
    getVersionsForOrigin [⟨"activated", "https://example.com/sw.js", "1"⟩]
        ⟨"https", "example.com", "/a"⟩ =
      getVersionsForOrigin [⟨"activated", "https://example.com/sw.js", "1"⟩]
        ⟨"https", "example.com", "/b"⟩ :=
  getVersionsForOrigin_origin_only ⟨"https", "example.com", "/a"⟩
    ⟨"https", "example.com", "/b"⟩ rfl _


/-- C2: among the candidates whose normalized scope URL is a string prefix
of the page href, the resolver selects one of maximal scope-URL length,
and among equal-maximal candidates the last one in original candidate
order (stable ascending sort by length, then take the last element). -/
theorem resolver_longest_then_last (vers : List SWVersion)
    (regs : List SWRegistration) (pu : JSURL) (l : List ScopeMatch)
    (hb : buildScopeList vers regs = some l)
    (hm : l.filter (fun ss => strStartsWith pu.href ss.scopeUrl) ≠ []) :
    ∃ x l₁ l₂,
      getControllingServiceWorker vers regs pu = some (some x) ∧
      l.filter (fun ss => strStartsWith pu.href ss.scopeUrl) = l₁ ++ x :: l₂ ∧
      (∀ y ∈ l.filter (fun ss => strStartsWith pu.href ss.scopeUrl),
        y.scopeUrl.length ≤ x.scopeUrl.length) ∧
      (∀ y ∈ l₂, y.scopeUrl.length < x.scopeUrl.length) := by
  obtain ⟨x, l₁, l₂, hx, hdec, hmax, hstrict⟩ := lastMax_spec _ hm
  refine ⟨x, l₁, l₂, ?_, hdec, hmax, hstrict⟩
  rw [getControllingServiceWorker, hb, Option.map_some', pickControlling,
    lastElem_insertionSort, hx]

theorem resolver_longest_then_last_witness :
    ∃ x l₁ l₂,
      getControllingServiceWorker
        [⟨"activated", "https://e.com/s1.js", "1"⟩,
         ⟨"activated", "https://e.com/s2.js", "2"⟩]
        [⟨"1", "https://e.com/a/"⟩, ⟨"2", "https://e.com/a/"⟩]
        ⟨"https", "e.com", "/a/x"⟩ = some (some x) ∧
      List.filter (fun ss => strStartsWith (JSURL.href ⟨"https", "e.com", "/a/x"⟩) ss.scopeUrl)
        [⟨"https://e.com/a/", "https://e.com/s1.js"⟩,
         ⟨"https://e.com/a/", "https://e.com/s2.js"⟩] = l₁ ++ x :: l₂ ∧
      (∀ y ∈ List.filter (fun ss => strStartsWith (JSURL.href ⟨"https", "e.com", "/a/x"⟩) ss.scopeUrl)
          [(⟨"https://e.com/a/", "https://e.com/s1.js"⟩ : ScopeMatch),
           ⟨"https://e.com/a/", "https://e.com/s2.js"⟩],
        y.scopeUrl.length ≤ x.scopeUrl.length) ∧
      (∀ y ∈ l₂, y.scopeUrl.length < x.scopeUrl.length) :=
  resolver_longest_then_last
    [⟨"activated", "https://e.com/s1.js", "1"⟩,
     ⟨"activated", "https://e.com/s2.js", "2"⟩]
    [⟨"1", "https://e.com/a/"⟩, ⟨"2", "https://e.com/a/"⟩]
    ⟨"https", "e.com", "/a/x"⟩
    [⟨"https://e.com/a/", "https://e.com/s1.js"⟩,
     ⟨"https://e.com/a/", "https://e.com/s2.js"⟩]
    rfl (by decide)

/-- C8: each candidate version is joined to the first registration in
registration order sharing its `registrationId` — even when several
registrations share that id — and a version with no matching registration
contributes no scope candidate. -/
theorem join_first_matching_registration :
    (∀ (rs₁ : List SWRegistration) (r : SWRegistration)
      (rs₂ : List SWRegistration) (rid : String),
      r.registrationId = rid → (∀ r2 ∈ rs₁, r2.registrationId ≠ rid) →
      findRegistration (rs₁ ++ r :: rs₂) rid = some r) ∧
    (∀ (v : SWVersion) (vs : List SWVersion) (regs : List SWRegistration),
      findRegistration regs v.registrationId = none →
      buildScopeList (v :: vs) regs = buildScopeList vs regs) ∧
    (∀ (v : SWVersion) (vs : List SWVersion) (regs : List SWRegistration)
      (r : SWRegistration) (su vu : JSURL),
      findRegistration regs v.registrationId = some r →
      parseURL r.scopeURL = some su → parseURL v.scriptURL = some vu →
      buildScopeList (v :: vs) regs =
        (buildScopeList vs regs).map (fun rest => ⟨su.href, vu.href⟩ :: rest)) := by
  refine ⟨findRegistration_append_first, ?_, ?_⟩
  · intro v vs regs hf
    rw [buildScopeList, hf]
  · intro v vs regs r su vu hf hsu hvu
    rw [buildScopeList, hf]
    dsimp only
    rw [hsu, hvu]

theorem join_first_matching_registration_witness :
    findRegistration
      [⟨"1", "https://a.example/"⟩, ⟨"1", "https://b.example/"⟩] "1" =
      some ⟨"1", "https://a.example/"⟩ ∧
    buildScopeList [⟨"activated", "https://a.example/sw.js", "9"⟩]
        [⟨"1", "https://a.example/"⟩, ⟨"1", "https://b.example/"⟩] =
      buildScopeList []
        [⟨"1", "https://a.example/"⟩, ⟨"1", "https://b.example/"⟩] ∧
    buildScopeList [⟨"activated", "https://a.example/sw.js", "1"⟩]
        [⟨"1", "https://a.example/"⟩, ⟨"1", "https://b.example/"⟩] =
      (buildScopeList []
          [⟨"1", "https://a.example/"⟩, ⟨"1", "https://b.example/"⟩]).map
        (fun rest =>
          ⟨JSURL.href ⟨"https", "a.example", "/"⟩,
           JSURL.href ⟨"https", "a.example", "/sw.js"⟩⟩ :: rest) :=
  ⟨join_first_matching_registration.1 [] ⟨"1", "https://a.example/"⟩
      [⟨"1", "https://b.example/"⟩] "1" rfl (by simp),
   join_first_matching_registration.2.1 ⟨"activated", "https://a.example/sw.js", "9"⟩
      [] [⟨"1", "https://a.example/"⟩, ⟨"1", "https://b.example/"⟩] rfl,
   join_first_matching_registration.2.2 ⟨"activated", "https://a.example/sw.js", "1"⟩
      [] [⟨"1", "https://a.example/"⟩, ⟨"1", "https://b.example/"⟩]
      ⟨"1", "https://a.example/"⟩ ⟨"https", "a.example", "/"⟩
      ⟨"https", "a.example", "/sw.js"⟩ rfl rfl rfl⟩

/-- C1: the orchestrator is a pure decision tree with four terminal
outcomes: empty origin filter gives score 0 with no explanation and no
details; no controlling scope gives score 0 with the out-of-scope
explanation naming the page href and no details; a start-URL failure gives
score 0 with that message and the scope/script details; otherwise score 1
with the details. -/
theorem audit_decision_tree (arts : Artifacts) (u : JSURL) (vs : List SWVersion)
    (hu : parseURL arts.URL.finalUrl = some u)
    (hvs : getVersionsForOrigin arts.ServiceWorker.versions u = some vs) :
    (vs.length = 0 → audit arts = some ⟨0, none, none⟩) ∧
    (vs.length ≠ 0 →
      (getControllingServiceWorker vs arts.ServiceWorker.registrations u =
          some none →
        audit arts = some ⟨0, some (Explanation.outOfScope u.href), none⟩) ∧
      (∀ sm, getControllingServiceWorker vs arts.ServiceWorker.registrations u =
          some (some sm) →
        (∀ f, checkStartUrl arts.WebAppManifest sm.scopeUrl = some f →
          audit arts = some ⟨0, some f, some sm⟩) ∧
        (checkStartUrl arts.WebAppManifest sm.scopeUrl = none →
          audit arts = some ⟨1, none, some sm⟩))) := by
  constructor
  · intro h0
    rw [audit, hu]
    dsimp only
    rw [hvs]
    dsimp only
    rw [if_pos h0]
  · intro hne
    constructor
    · intro hg
      rw [audit, hu]
      dsimp only
      rw [hvs]
      dsimp only
      rw [if_neg hne, hg]
    · intro sm hg
      constructor
      · intro f hf
        rw [audit, hu]
        dsimp only
        rw [hvs]
        dsimp only
        rw [if_neg hne, hg]
        dsimp only
        rw [hf]
      · intro hf
        rw [audit, hu]
        dsimp only
        rw [hvs]
        dsimp only
        rw [if_neg hne, hg]
        dsimp only
        rw [hf]

theorem audit_decision_tree_witness :
    audit ⟨⟨"https://example.com/page"⟩,
      ⟨[⟨"activated", "https://example.com/sw.js", "1"⟩],
       [⟨"1", "https://example.com/"⟩]⟩,
      some ⟨some ⟨⟨"https://example.com/start"⟩⟩⟩⟩ =
      some ⟨1, none, some ⟨"https://example.com/", "https://example.com/sw.js"⟩⟩ :=
  (((audit_decision_tree ⟨⟨"https://example.com/page"⟩,
      ⟨[⟨"activated", "https://example.com/sw.js", "1"⟩],
       [⟨"1", "https://example.com/"⟩]⟩,
      some ⟨some ⟨⟨"https://example.com/start"⟩⟩⟩⟩
    ⟨"https", "example.com", "/page"⟩
    [⟨"activated", "https://example.com/sw.js", "1"⟩] rfl rfl).2
    (by decide)).2
    ⟨"https://example.com/", "https://example.com/sw.js"⟩ rfl).2 rfl


/-- C3 counterexample: the evaluation CAN throw.  With an activated
version whose `scriptURL` is not a parseable URL, the `URL` constructor
inside the origin filter throws and the audit produces no verdict at all
(modelled by `none`), so not every input maps to one of the six outcomes. -/
theorem audit_throws_on_bad_scriptURL :
    audit ⟨⟨"https://example.com/"⟩, ⟨[⟨"activated", "nourl", "1"⟩], []⟩, none⟩ =
      none := rfl

/-- C3 (amended): provided the final page URL, every activated version's
script URL, and every registration's scope URL parse as URLs, the
evaluation never throws and yields exactly one of the six enumerated
outcomes. -/
theorem audit_total_of_parses (arts : Artifacts)
    (h1 : (parseURL arts.URL.finalUrl).isSome)
    (h2 : ∀ v ∈ arts.ServiceWorker.versions, v.status = "activated" →
      (parseURL v.scriptURL).isSome)
    (h3 : ∀ r ∈ arts.ServiceWorker.registrations, (parseURL r.scopeURL).isSome) :
    ∃ verdict, audit arts = some verdict ∧
      (verdict = ⟨0, none, none⟩ ∨
       (∃ p, verdict = ⟨0, some (Explanation.outOfScope p), none⟩) ∨
       (∃ sm, verdict = ⟨0, some Explanation.noManifest, some sm⟩) ∨
       (∃ sm, verdict = ⟨0, some Explanation.badManifest, some sm⟩) ∨
       (∃ sm s sc, verdict = ⟨0, some (Explanation.badStartUrl s sc), some sm⟩) ∨
       (∃ sm, verdict = ⟨1, none, some sm⟩)) := by
  obtain ⟨u, hu⟩ := Option.isSome_iff_exists.mp h1
  have hact : ∀ v ∈ arts.ServiceWorker.versions.filter
      (fun v => v.status == "activated"), (parseURL v.scriptURL).isSome := by
    intro v hv
    have hm := List.mem_filter.mp hv
    exact h2 v hm.1 (by simpa using hm.2)
  obtain ⟨out, hout⟩ := filterOriginM_isSome u hact
  have hget : getVersionsForOrigin arts.ServiceWorker.versions u = some out := hout
  by_cases h0 : out.length = 0
  · refine ⟨⟨0, none, none⟩, ?_, Or.inl rfl⟩
    rw [audit, hu]
    dsimp only
    rw [hget]
    dsimp only
    rw [if_pos h0]
  · have hchar := filterOriginM_eq_filter u hout
    have hmem_parse : ∀ v ∈ out, (parseURL v.scriptURL).isSome := by
      intro v hv
      rw [hchar] at hv
      exact hact v (List.mem_filter.mp hv).1
    obtain ⟨l, hl⟩ := buildScopeList_isSome hmem_parse h3
    have hmap : getControllingServiceWorker out arts.ServiceWorker.registrations u =
        some (pickControlling l u) := by
      rw [getControllingServiceWorker, hl, Option.map_some']
    cases hpick : pickControlling l u with
    | none =>
      rw [hpick] at hmap
      refine ⟨⟨0, some (Explanation.outOfScope u.href), none⟩, ?_,
        Or.inr (Or.inl ⟨u.href, rfl⟩)⟩
      rw [audit, hu]
      dsimp only
      rw [hget]
      dsimp only
      rw [if_neg h0, hmap]
    | some sm =>
      rw [hpick] at hmap
      cases hman : arts.WebAppManifest with
      | none =>
        have hcs : checkStartUrl arts.WebAppManifest sm.scopeUrl =
            some Explanation.noManifest := by
          rw [hman]
          rfl
        refine ⟨⟨0, some Explanation.noManifest, some sm⟩, ?_,
          Or.inr (Or.inr (Or.inl ⟨sm, rfl⟩))⟩
        rw [audit, hu]
        dsimp only
        rw [hget]
        dsimp only
        rw [if_neg h0, hmap]
        dsimp only
        rw [hcs]
      | some art =>
        cases hval : art.value with
        | none =>
          have hcs : checkStartUrl arts.WebAppManifest sm.scopeUrl =
              some Explanation.badManifest := by
            simp [checkStartUrl, hman, hval]
          refine ⟨⟨0, some Explanation.badManifest, some sm⟩, ?_,
            Or.inr (Or.inr (Or.inr (Or.inl ⟨sm, rfl⟩)))⟩
          rw [audit, hu]
          dsimp only
          rw [hget]
          dsimp only
          rw [if_neg h0, hmap]
          dsimp only
          rw [hcs]
        | some mv =>
          by_cases hsw : strStartsWith mv.start_url.value sm.scopeUrl = true
          · have hcs : checkStartUrl arts.WebAppManifest sm.scopeUrl = none := by
              simp [checkStartUrl, hman, hval, hsw]
            refine ⟨⟨1, none, some sm⟩, ?_,
              Or.inr (Or.inr (Or.inr (Or.inr (Or.inr ⟨sm, rfl⟩))))⟩
            rw [audit, hu]
            dsimp only
            rw [hget]
            dsimp only
            rw [if_neg h0, hmap]
            dsimp only
            rw [hcs]
          · have hsw2 : strStartsWith mv.start_url.value sm.scopeUrl = false :=
              Bool.eq_false_iff.mpr hsw
            have hcs : checkStartUrl arts.WebAppManifest sm.scopeUrl =
                some (Explanation.badStartUrl mv.start_url.value sm.scopeUrl) := by
              simp [checkStartUrl, hman, hval, hsw2]
            refine ⟨⟨0, some (Explanation.badStartUrl mv.start_url.value sm.scopeUrl),
                some sm⟩, ?_,
              Or.inr (Or.inr (Or.inr (Or.inr (Or.inl
                ⟨sm, mv.start_url.value, sm.scopeUrl, rfl⟩))))⟩
            rw [audit, hu]
            dsimp only
            rw [hget]
            dsimp only
            rw [if_neg h0, hmap]
            dsimp only
            rw [hcs]

theorem audit_total_of_parses_witness :
    ∃ verdict, audit ⟨⟨"https://example.com/"⟩, ⟨[], []⟩, none⟩ = some verdict ∧
      (verdict = ⟨0, none, none⟩ ∨
       (∃ p, verdict = ⟨0, some (Explanation.outOfScope p), none⟩) ∨
       (∃ sm, verdict = ⟨0, some Explanation.noManifest, some sm⟩) ∨
       (∃ sm, verdict = ⟨0, some Explanation.badManifest, some sm⟩) ∨
       (∃ sm s sc, verdict = ⟨0, some (Explanation.badStartUrl s sc), some sm⟩) ∨
       (∃ sm, verdict = ⟨1, none, some sm⟩)) :=
  audit_total_of_parses ⟨⟨"https://example.com/"⟩, ⟨[], []⟩, none⟩
    (by decide) (by decide) (by decide)

/-- C4 counterexample: the start-URL validator prefix-compares the
manifest's `start_url` exactly as supplied — here the raw, unnormalized
string is compared (and embedded in the failure message) even though it
is not in canonical absolute href form (normalization cannot even parse
it). -/
theorem checkStartUrl_compares_raw :
    checkStartUrl (some ⟨some ⟨⟨"./index.html"⟩⟩⟩) "https://example.com/" =
      some (Explanation.badStartUrl "./index.html" "https://example.com/") ∧
    normalizeUrl "./index.html" = none := ⟨rfl, rfl⟩

/-- C4 (amended): both sides of the resolver's prefix check are canonical
absolute hrefs (every scope and script URL it compares is a fixed point of
normalization, and the page side is a parsed URL's href, also a fixed
point); the start-URL check's scope side is such a normalized href, but
its `start_url` side is compared exactly as supplied by the manifest
artifact, without normalization by the core. -/
theorem normalized_compare_amended :
    (∀ (vs : List SWVersion) (regs : List SWRegistration) (l : List ScopeMatch),
      buildScopeList vs regs = some l →
      ∀ sm ∈ l, normalizeUrl sm.scopeUrl = some sm.scopeUrl ∧
        normalizeUrl sm.scriptUrl = some sm.scriptUrl) ∧
    (∀ (s : String) (u : JSURL), parseURL s = some u →
      normalizeUrl u.href = some u.href) ∧
    (∀ (mv : ManifestValue) (scope : String),
      checkStartUrl (some ⟨some mv⟩) scope =
        (if strStartsWith mv.start_url.value scope then none
         else some (Explanation.badStartUrl mv.start_url.value scope))) :=
  ⟨fun _ _ _ h => buildScopeList_normalized h,
   fun _ _ h => normalizeUrl_fixed h,
   fun _ _ => rfl⟩

theorem normalized_compare_amended_witness :
    normalizeUrl "https://example.com/" = some "https://example.com/" ∧
    normalizeUrl "https://example.com/sw.js" = some "https://example.com/sw.js" :=
  normalized_compare_amended.1
    [⟨"activated", "https://example.com/sw.js", "1"⟩]
    [⟨"1", "https://example.com/"⟩]
    [⟨"https://example.com/", "https://example.com/sw.js"⟩] rfl
    ⟨"https://example.com/", "https://example.com/sw.js"⟩ (by simp)

end SWAudit
